import Mathlib

/-!
Shallow embedding of the core of the `arachne` signal-injection stage
(src/arachne.c, src/general_prob_function.c, src/weave.c) together with
proofs and refutations of the specified properties.

Machine integers are modelled as `Nat`/`Int`; the C `double` computations of
the injection probability model are idealised over `Real` (the C code calls
`erf` from libm, modelled below by the mathematical error function).
-/

namespace Arachne

/-- MAXBLKS: the number of slots of each ring buffer
(src/arachne.c line 41, src/weave.c line 15). -/
def MAXBLKS : Nat := 16

/-- BLKSIZE: bytes of sample data per ring-buffer slot (src/arachne.c line 46). -/
def BLKSIZE : Nat := 32 * 512 * 4096

/-! ## Bit-depth requantizer (src/arachne.c lines 426-436)

The requantization loop walks the block in 4-byte strides.  For one group of
raw bytes `(r0, r1, r2, r3)` it builds

  `temp = ((((r0<<2)&0xc0)>>6)&0x03) | ((((r1<<2)&0xc0)>>4)&0x0c) |
          ((((r2<<2)&0xc0)>>2)&0x30) | ((r3<<2)&0xc0)`

and scatters it back as

  `raw[i+3] = temp&0x03; raw[i+2] = (temp&0x0c)>>2;`
  `raw[i+1] = (temp&0x30)>>4; raw[i+0] = (temp&0xc0)>>6`.

`temp` is an `unsigned char` in C; the or of the four disjoint masked fields
is at most `0xff`, so plain `Nat` arithmetic is exact. -/
def requantGroup (g : Nat × Nat × Nat × Nat) : Nat × Nat × Nat × Nat :=
  let temp : Nat :=
    ((((g.1 <<< 2) &&& 0xc0) >>> 6) &&& 0x03) |||
    ((((g.2.1 <<< 2) &&& 0xc0) >>> 4) &&& 0x0c) |||
    ((((g.2.2.1 <<< 2) &&& 0xc0) >>> 2) &&& 0x30) |||
    ((g.2.2.2 <<< 2) &&& 0xc0)
  ((temp &&& 0xc0) >>> 6, (temp &&& 0x30) >>> 4, (temp &&& 0x0c) >>> 2, temp &&& 0x03)

/-- The requantization pass over a whole block, in 4-byte strides
(src/arachne.c line 427: `for (int i = 0; i < BLKSIZE; i = i + 4)`).
A trailing partial group cannot occur in the C code (BLKSIZE is a multiple
of 4) and is left untouched here. -/
def requantBlock : List Nat → List Nat
  | r0 :: r1 :: r2 :: r3 :: rest =>
    let g := requantGroup (r0, r1, r2, r3)
    g.1 :: g.2.1 :: g.2.2.1 :: g.2.2.2 :: requantBlock rest
  | l => l

/-! ## Ring-buffer bridge cursors
(src/arachne.c lines 352-354, 388-391, 397-420, 1836-1841;
the same logic appears in src/weave.c lines 208-281). -/

/-- Producer-side cursor fields of the input ring buffer as observed by the
bridge (`BufRead->curr_blk`, `BufRead->curr_rec`). -/
structure ProdCursor where
  curr_blk : Nat
  curr_rec : Nat
deriving DecidableEq

/-- Local bridge state: the consumer read cursor (`currentReadBlock`,
`recNumRead`) and the published output-ring write cursor.  In the C code
`BufWrite->curr_rec` always equals the local `recNumWrite` after each
iteration, and `writeBlk` stands for `BufWrite->curr_blk`. -/
structure BridgeState where
  currentReadBlock : Nat
  recNumRead : Nat
  writeBlk : Nat
  recNumWrite : Nat
deriving DecidableEq

/-- The lag of the consumer behind the producer,
`BufRead->curr_blk - currentReadBlock` (src/arachne.c line 414). -/
def lagOf (w : ProdCursor) (s : BridgeState) : Nat :=
  w.curr_blk - s.currentReadBlock

/-- The realignment snap (src/arachne.c lines 416-417, src/weave.c lines
269-270): `recNumRead = (BufRead->curr_rec - 1 + MAXBLKS) % MAXBLKS` and
`currentReadBlock = BufRead->curr_blk - 1`.  The C subtraction is unsigned;
over `Nat` the equal form `(curr_rec + MAXBLKS - 1) % MAXBLKS` is used. -/
def realign (w : ProdCursor) (s : BridgeState) : BridgeState :=
  { s with
    recNumRead := (w.curr_rec + MAXBLKS - 1) % MAXBLKS,
    currentReadBlock := w.curr_blk - 1 }

/-- The per-iteration lag check (src/arachne.c line 414):
`if (BufRead->curr_blk - currentReadBlock >= MAXBLKS - 1)` realign. -/
def realignCheck (w : ProdCursor) (s : BridgeState) : BridgeState :=
  if MAXBLKS - 1 ≤ w.curr_blk - s.currentReadBlock then realign w s else s

/-- End-of-iteration cursor advance (src/arachne.c lines 1836-1841):
both the read cursor and the output write cursor advance by one block,
records modulo MAXBLKS. -/
def advance (s : BridgeState) : BridgeState :=
  { currentReadBlock := s.currentReadBlock + 1,
    recNumRead := (s.recNumRead + 1) % MAXBLKS,
    writeBlk := s.writeBlk + 1,
    recNumWrite := (s.recNumWrite + 1) % MAXBLKS }

/-- One full bridge iteration against a producer cursor snapshot:
lag check (with possible realignment), then the advance. -/
def bridgeIter (w : ProdCursor) (s : BridgeState) : BridgeState :=
  advance (realignCheck w s)

/-- The initial bridge state (src/arachne.c lines 352-354, 388-390):
read and write cursors all zero. -/
def bridgeInit : BridgeState := ⟨0, 0, 0, 0⟩

/-- Run of the bridge over a sequence of producer cursor observations,
one per iteration, from the initial state. -/
def bridgeRun (ws : List ProdCursor) : BridgeState :=
  ws.foldl (fun s w => bridgeIter w s) bridgeInit

/-! ## Burst-cell range scan (src/arachne.c lines 477-487)

Per sparse cell the code computes an absolute index `I` and executes
`if ((I <= blkbeg) || (I >= blkend)) break;` before injecting, so a cell
is injected only if it is strictly inside `(blkbeg, blkend)` and the scan
aborts at the first cell outside that open interval. -/

/-- The absolute flattened index of a sparse cell (src/arachne.c lines
478-484): `(offset + rows[i]) * nf` plus the (optionally band-flipped)
channel index. -/
def cellIndex (offset row col nf : Int) (band4 : Bool) : Int :=
  (offset + row) * nf + (if band4 then nf - 1 - col else col)

/-- The sequence of cell indices actually injected by the scan of
src/arachne.c lines 477-487: the loop body runs for each cell in order and
`break`s at the first cell with `I <= blkbeg || I >= blkend`. -/
def injectScan (blkbeg blkend : Int) : List Int → List Int
  | [] => []
  | I :: rest =>
    if I ≤ blkbeg ∨ blkend ≤ I then [] else I :: injectScan blkbeg blkend rest

/-! ## Lazily seeded random deviates (src/arachne.c lines 154-164, 470)

`set_seed` returns the negated wall-clock time; `random_deviate` seeds the
Mersenne Twister on a negative seed, replaces the seed by the sentinel `1`,
and then draws.  The deviate values themselves come from the external
`mt19937` generator and are not modelled; the model counts `init_genrand`
calls and draws. -/

/-- State of the seed variable together with instrumentation counters:
`inits` counts `init_genrand` calls, `draws` counts `genrand_real1` calls. -/
structure RngState where
  seed : Int
  inits : Nat
  draws : Nat
deriving DecidableEq

/-- set_seed (src/arachne.c line 155): `return -time(NULL);`, with the
current time `t` passed explicitly. -/
def set_seed (t : Int) : Int := -t

/-- random_deviate (src/arachne.c lines 158-164): seed the generator once
while the seed is negative, replacing it by the sentinel `1`, then draw. -/
def random_deviate (s : RngState) : RngState :=
  if s.seed < 0 then { seed := 1, inits := s.inits + 1, draws := s.draws + 1 }
  else { s with draws := s.draws + 1 }

/-- The seed life-cycle of one burst-file scan inside one block iteration:
`long seed = set_seed();` (src/arachne.c line 470) followed by one
`random_deviate(&seed)` call per processed cell (line 494), `n` in all. -/
def burstScan (t : Int) (n : Nat) : RngState :=
  random_deviate^[n] { seed := set_seed t, inits := 0, draws := 0 }

/-- Total number of `init_genrand` calls over a run, one burst-file scan per
list entry (each entry is the number of cells that scan processes): the C
code re-creates the local `seed` for every burst file in every block
iteration (src/arachne.c line 470 sits inside both loops). -/
def runInits (t : Int) (bursts : List Nat) : Nat :=
  (bursts.map fun n => (burstScan t n).inits).sum

/-! ## Quantization math (src/arachne.c lines 133-152)

The C `min`/`max` on doubles coincide with Mathlib's `min`/`max` on `ℝ` and
are used as such below.  `prob` calls libm's `erf`, modelled here by the
mathematical error function. -/

noncomputable section

open intervalIntegral in
/-- erf: the Gauss error function, `(2/sqrt pi) * INT_0^x exp (-t^2) dt`,
the idealisation of libm's `erf` used by `prob`. -/
def erf (x : ℝ) : ℝ :=
  2 / Real.sqrt Real.pi * ∫ t in (0:ℝ)..x, Real.exp (-t ^ 2)

/-- prob (src/arachne.c line 152):
`double prob(double x) { return 0.5 + 0.5 * erf(x / sqrt(2)); }`. -/
def prob (x : ℝ) : ℝ := 0.5 + 0.5 * erf (x / Real.sqrt 2)

/-- clip (src/arachne.c lines 145-149): exclusive-upper-bound clip. -/
def clip (x x1 x2 : ℝ) : ℝ :=
  if x1 ≤ x ∧ x < x2 then x else if x < x1 then x1 else x2

/-! ## 8-bit injection decision (src/arachne.c lines 498-1785)

Every one of the 256 `case` arms of the unrolled switch executes the same
loop:

  `for (m = 255-in; m > 0; m--) {`
  `  plvl = (prob(min((in-127)*lvl, (in+m-127)*lvl - signal))`
  `          - prob(max((in-128)*lvl, (in+m-128)*lvl - signal)))`
  `         / (prob((in-127)*lvl) - prob((in-128)*lvl));`
  `  if (pval < plvl) {out = in + m; break;}}`

When no candidate shift is accepted the C code leaves `out` unchanged; its
intended value is the input level, per the explicit `int out = in;`
(`// prob 255--> 255`) of src/general_prob_function.c line 7 and the
commented-out 2-bit variant (src/arachne.c lines 1788-1824), and the model
uses that fallback. -/

/-- The `plvl` formula of the 8-bit injection scan body
(src/arachne.c lines 500-502). -/
def plvl8 (inp m : Nat) (lvl signal : ℝ) : ℝ :=
  (prob (min (((inp : ℝ) - 127) * lvl) (((inp : ℝ) + (m : ℝ) - 127) * lvl - signal)) -
      prob (max (((inp : ℝ) - 128) * lvl) (((inp : ℝ) + (m : ℝ) - 128) * lvl - signal))) /
    (prob (((inp : ℝ) - 127) * lvl) - prob (((inp : ℝ) - 128) * lvl))

/-- The descending scan `for (m = fuel; m > 0; m--)`: the first candidate
shift `m` with `pval < plvl` is accepted, `none` if the loop exhausts. -/
def scanShift (inp : Nat) (lvl signal pval : ℝ) : Nat → Option Nat
  | 0 => none
  | m + 1 =>
    if pval < plvl8 inp (m + 1) lvl signal then some (m + 1)
    else scanShift inp lvl signal pval m

/-- The output level written back for one cell by the 8-bit injection
(src/arachne.c lines 498-1785 plus the `out = in` fallback discussed
above): the scan starts at `m = 255 - in`. -/
def injectLevel (inp : Nat) (lvl signal pval : ℝ) : Nat :=
  match scanShift inp lvl signal pval (255 - inp) with
  | some m => inp + m
  | none => inp

/-! ## cal_bit_shift_prob (src/general_prob_function.c lines 4-58)

The historical variant keeps `double plvl = 0, pval = 0; int out = in;` and
scans `m` upward, keeping the argmax of `plvl` (strict improvement).  The
branch formulas depend on `in == 0` and on whether `in + m` is `0` or `255`.
The unused local `int i = in + (pow(2, m) / 2) - 1;` (line 5, reading the
file-scope `m` of line 2) has no effect on the result and is omitted. -/

/-- The branch formulas of cal_bit_shift_prob
(src/general_prob_function.c lines 11-54). -/
def gpfPlvl (inp m : Nat) (lvl signal : ℝ) : ℝ :=
  if inp = 0 then
    if inp + m = 0 then
      prob (-127 * lvl - signal) / prob (-127 * lvl)
    else if inp + m = 255 then
      (prob (-127 * lvl) - prob (127 * lvl - signal)) / prob (-127 * lvl)
    else
      (prob (min (-127 * lvl) (((m : ℝ) - 127) * lvl - signal)) -
          prob (((m : ℝ) - 128) * lvl - signal)) /
        prob (((inp : ℝ) - 127) * lvl)
  else
    if inp + m = 255 then
      (prob (((inp : ℝ) - 127) * lvl) -
          prob (max (((inp : ℝ) - 128) * lvl) (127 * lvl - signal))) /
        (prob (((inp : ℝ) - 127) * lvl) - prob (((inp : ℝ) - 128) * lvl))
    else
      (prob (min (((inp : ℝ) - 127) * lvl) (((inp : ℝ) + (m : ℝ) - 127) * lvl - signal)) -
          prob (max (((inp : ℝ) - 128) * lvl) (((inp : ℝ) + (m : ℝ) - 128) * lvl - signal))) /
        (prob (((inp : ℝ) - 127) * lvl) - prob (((inp : ℝ) - 128) * lvl))

/-- cal_bit_shift_prob (src/general_prob_function.c lines 4-58): both the
`in == 0` and the `in != 0` branch loop `for (m = 0; m <= 255 - in; m++)`
and keep the argmax, starting from `pval = 0`, `out = in`. -/
def cal_bit_shift_prob (inp : Nat) (lvl signal : ℝ) : Nat :=
  ((List.range (255 - inp + 1)).foldl
      (fun st m =>
        if st.1 < gpfPlvl inp m lvl signal then (gpfPlvl inp m lvl signal, inp + m) else st)
      ((0 : ℝ), inp)).2

/-- The 2-bit four-branch closed-form decision tree, embedded from the
commented-out 2-bit variant (src/arachne.c lines 1788-1824).  The C if-chain
has no final else, leaving `out` unchanged for `in` outside 0..3; the model
falls back to `inp` there. -/
def inject2bit (inp : Nat) (lvl signal pval : ℝ) : Nat :=
  if inp = 3 then 3
  else if inp = 2 then
    let plvl1 := (prob (max 0 (lvl - signal)) - 0.5) / (prob lvl - 0.5)
    if pval < plvl1 then 2 else 3
  else if inp = 1 then
    let plvl1 := (0.5 - prob (clip (-lvl) 0 (lvl - signal))) / (0.5 - prob (-lvl))
    let plvl2 := plvl1 +
      (prob (clip (-lvl) 0 (lvl - signal)) - prob (max (-signal) (-lvl))) /
        (0.5 - prob (-lvl))
    if pval < plvl1 then 3 else if pval < plvl2 then 2 else 1
  else if inp = 0 then
    let plvl1 := (prob (-lvl) - prob (min (-signal + lvl) (-lvl))) / prob (-lvl)
    let plvl2 := plvl1 +
      (prob (min (-signal + lvl) (-lvl)) - prob (min (-signal) (-lvl))) / prob (-lvl)
    let plvl3 := plvl2 +
      (prob (min (-signal) (-lvl)) - prob (-lvl - signal)) / prob (-lvl)
    if pval < plvl1 then 3
    else if pval < plvl2 then 2
    else if pval < plvl3 then 1
    else 0
  else inp

end

/-! ## Requantizer lemmas -/

/-- Every output byte of one requantized 4-byte group is a 2-bit value. -/
lemma requantGroup_le (g : Nat × Nat × Nat × Nat) :
    (requantGroup g).1 ≤ 3 ∧ (requantGroup g).2.1 ≤ 3 ∧
      (requantGroup g).2.2.1 ≤ 3 ∧ (requantGroup g).2.2.2 ≤ 3 := by
  obtain ⟨r0, r1, r2, r3⟩ := g
  simp only [requantGroup]
  refine ⟨?_, ?_, ?_, ?_⟩
  · have h := Nat.and_le_right (n := ((((r0 <<< 2) &&& 0xc0) >>> 6) &&& 0x03) |||
      ((((r1 <<< 2) &&& 0xc0) >>> 4) &&& 0x0c) |||
      ((((r2 <<< 2) &&& 0xc0) >>> 2) &&& 0x30) ||| ((r3 <<< 2) &&& 0xc0)) (m := 0xc0)
    rw [Nat.shiftRight_eq_div_pow]
    omega
  · have h := Nat.and_le_right (n := ((((r0 <<< 2) &&& 0xc0) >>> 6) &&& 0x03) |||
      ((((r1 <<< 2) &&& 0xc0) >>> 4) &&& 0x0c) |||
      ((((r2 <<< 2) &&& 0xc0) >>> 2) &&& 0x30) ||| ((r3 <<< 2) &&& 0xc0)) (m := 0x30)
    rw [Nat.shiftRight_eq_div_pow]
    omega
  · have h := Nat.and_le_right (n := ((((r0 <<< 2) &&& 0xc0) >>> 6) &&& 0x03) |||
      ((((r1 <<< 2) &&& 0xc0) >>> 4) &&& 0x0c) |||
      ((((r2 <<< 2) &&& 0xc0) >>> 2) &&& 0x30) ||| ((r3 <<< 2) &&& 0xc0)) (m := 0x0c)
    rw [Nat.shiftRight_eq_div_pow]
    omega
  · exact Nat.and_le_right

/-- For a 2-bit byte value, the mask step of the requantizer kills all bits:
a requantized byte carries no information in bits 5:4. -/
lemma shiftmask_eq_zero {x : Nat} (h : x ≤ 3) : (x <<< 2) &&& 0xc0 = 0 := by
  interval_cases x <;> rfl

set_option maxRecDepth 4000 in
/-- The mask step of the requantizer depends only on bits 5:4 of a byte. -/
lemma shiftmask_bits54 : ∀ x < 256, (x <<< 2) &&& 0xc0 = (x &&& 0x30) <<< 2 := by
  decide

/-- The requantizer group transform reads only bits 5:4 of each input byte. -/
lemma shiftmask_eq_of_bits54 {r s : Nat} (hr : r < 256) (hs : s < 256)
    (h : r &&& 0x30 = s &&& 0x30) : (r <<< 2) &&& 0xc0 = (s <<< 2) &&& 0xc0 := by
  rw [shiftmask_bits54 r hr, shiftmask_bits54 s hs, h]

/-! ## Bridge lemmas -/

/-- One bridge iteration preserves the record/block coherence of both
cursors, provided the producer's own cursor is coherent. -/
lemma bridgeIter_inv (w : ProdCursor) (s : BridgeState)
    (hw : w.curr_rec = w.curr_blk % MAXBLKS)
    (h1 : s.recNumRead = s.currentReadBlock % MAXBLKS)
    (h2 : s.recNumWrite = s.writeBlk % MAXBLKS) :
    (bridgeIter w s).recNumRead = (bridgeIter w s).currentReadBlock % MAXBLKS ∧
      (bridgeIter w s).recNumWrite = (bridgeIter w s).writeBlk % MAXBLKS := by
  obtain ⟨wb, wr⟩ := w
  obtain ⟨rb, rr, ob, or⟩ := s
  simp only [bridgeIter, realignCheck, advance, realign, MAXBLKS] at *
  split <;> constructor <;> dsimp only <;> omega

/-! ## RNG lemmas -/

/-- Once the seed is non-negative, `random_deviate` only draws: the seed and
the init counter are untouched. -/
lemma iterate_random_deviate_of_nonneg :
    ∀ (n : Nat) (s : RngState), 0 ≤ s.seed →
      random_deviate^[n] s = { s with draws := s.draws + n } := by
  intro n
  induction n with
  | zero => intro s _; simp
  | succ n ih =>
    intro s hs
    rw [Function.iterate_succ_apply]
    have hstep : random_deviate s = { s with draws := s.draws + 1 } := by
      simp [random_deviate, not_lt.mpr hs]
    rw [hstep, ih _ (by simpa using hs)]
    simp only [RngState.mk.injEq, true_and]
    omega

/-- A burst scan with at least one processed cell seeds the generator exactly
once and leaves the sentinel seed `1`. -/
lemma burstScan_succ (t : Int) (n : Nat) (ht : 0 < t) :
    burstScan t (n + 1) = { seed := 1, inits := 1, draws := n + 1 } := by
  have hneg : set_seed t < 0 := by simp only [set_seed]; omega
  rw [burstScan, Function.iterate_succ_apply]
  have hstep : random_deviate { seed := set_seed t, inits := 0, draws := 0 } =
      { seed := 1, inits := 1, draws := 1 } := by
    simp only [random_deviate, if_pos hneg]
  rw [hstep, iterate_random_deviate_of_nonneg n _ (by norm_num)]
  simp [Nat.add_comm]

/-! ## Claim C2: requantization involution (refuted, corrected) -/

/-- C2 counterexample: the 4-byte-aligned block `[1,0,0,0]` is not returned
by applying the requantizer transform twice; the double application yields
the zero block instead. -/
theorem requant_involution_counterexample :
    requantBlock (requantBlock [1, 0, 0, 0]) ≠ [1, 0, 0, 0] ∧
      requantBlock (requantBlock [1, 0, 0, 0]) = [0, 0, 0, 0] := by
  constructor <;> decide

/-- C2 amended: the requantizer transform is not an involution; applying it
twice to any 4-byte group yields the all-zero group, because one application
reads only bits 5:4 of each byte yet produces bytes in 0..3, whose bits 5:4
are zero. -/
theorem requant_double_eq_zero (r0 r1 r2 r3 : Nat) :
    requantGroup (requantGroup (r0, r1, r2, r3)) = (0, 0, 0, 0) := by
  obtain ⟨h0, h1, h2, h3⟩ := requantGroup_le (r0, r1, r2, r3)
  rcases hE : requantGroup (r0, r1, r2, r3) with ⟨a, b, c, d⟩
  rw [hE] at h0 h1 h2 h3
  simp only [requantGroup, shiftmask_eq_zero h0, shiftmask_eq_zero h1,
    shiftmask_eq_zero h2, shiftmask_eq_zero h3]
  rfl

/-! ## Claim C8: requantizer input dependence (refuted, corrected) -/

/-- C8 counterexample: the two groups `(16,0,0,0)` and `(0,0,0,0)` agree on
bits 7:6 of every byte (bytes 1-3 are equal and `16 &&& 0xc0 = 0 &&& 0xc0`),
yet the requantizer produces different outputs on them. -/
theorem requant_top_bits_counterexample :
    (16 &&& 0xc0 : Nat) = (0 &&& 0xc0 : Nat) ∧
      requantGroup (16, 0, 0, 0) ≠ requantGroup (0, 0, 0, 0) := by
  constructor <;> decide

/-- C8 amended: the requantizer's output depends only on bits 5:4 (not bits
7:6) of each input byte: two groups of bytes agreeing on bits 5:4 of every
byte produce identical outputs. -/
theorem requant_depends_on_bits54 (r0 r1 r2 r3 s0 s1 s2 s3 : Nat)
    (hr0 : r0 < 256) (hr1 : r1 < 256) (hr2 : r2 < 256) (hr3 : r3 < 256)
    (hs0 : s0 < 256) (hs1 : s1 < 256) (hs2 : s2 < 256) (hs3 : s3 < 256)
    (h0 : r0 &&& 0x30 = s0 &&& 0x30) (h1 : r1 &&& 0x30 = s1 &&& 0x30)
    (h2 : r2 &&& 0x30 = s2 &&& 0x30) (h3 : r3 &&& 0x30 = s3 &&& 0x30) :
    requantGroup (r0, r1, r2, r3) = requantGroup (s0, s1, s2, s3) := by
  simp only [requantGroup]
  rw [shiftmask_eq_of_bits54 hr0 hs0 h0, shiftmask_eq_of_bits54 hr1 hs1 h1,
    shiftmask_eq_of_bits54 hr2 hs2 h2, shiftmask_eq_of_bits54 hr3 hs3 h3]

/-- C8 witness: two groups differing everywhere except in bits 5:4 map to
the same output. -/
theorem requant_depends_on_bits54_witness :
    ((0x35 : Nat) < 256 ∧ (0x75 : Nat) < 256 ∧
        (0x35 &&& 0x30 : Nat) = (0x75 &&& 0x30 : Nat) ∧
        (1 &&& 0x30 : Nat) = (0x81 &&& 0x30 : Nat) ∧
        (2 &&& 0x30 : Nat) = (0xc2 &&& 0x30 : Nat) ∧
        (0x13 &&& 0x30 : Nat) = (0xd9 &&& 0x30 : Nat)) ∧
      requantGroup (0x35, 1, 2, 0x13) = requantGroup (0x75, 0x81, 0xc2, 0xd9) :=
  ⟨by decide,
    requant_depends_on_bits54 0x35 1 2 0x13 0x75 0x81 0xc2 0xd9
      (by decide) (by decide) (by decide) (by decide)
      (by decide) (by decide) (by decide) (by decide)
      (by decide) (by decide) (by decide) (by decide)⟩

/-! ## Claim C5: realignment bounds lag (confirmed) -/

/-- C5: whenever the lag is at least `MAXBLKS - 1`, the iteration's lag check
realigns, the snapped cursor is `((curr_rec - 1 + MAXBLKS) mod MAXBLKS,
curr_blk - 1)`, and the lag right after the snap is exactly 1. -/
theorem realign_bounds_lag (w : ProdCursor) (s : BridgeState)
    (h : MAXBLKS - 1 ≤ lagOf w s) :
    realignCheck w s = realign w s ∧
      ((realign w s).recNumRead : Int) =
        ((w.curr_rec : Int) - 1 + (MAXBLKS : Int)) % (MAXBLKS : Int) ∧
      (realign w s).currentReadBlock = w.curr_blk - 1 ∧
      lagOf w (realign w s) = 1 := by
  simp only [lagOf, MAXBLKS] at h
  refine ⟨?_, ?_, rfl, ?_⟩
  · simp only [realignCheck, MAXBLKS, if_pos h]
  · simp only [realign, MAXBLKS]
    omega
  · simp only [lagOf, realign]
    omega

/-- C5 witness: a producer 20 blocks ahead at record 4 forces a realignment
that leaves a lag of exactly 1. -/
theorem realign_bounds_lag_witness :
    MAXBLKS - 1 ≤ lagOf ⟨20, 4⟩ ⟨0, 0, 0, 0⟩ ∧
      (realignCheck ⟨20, 4⟩ ⟨0, 0, 0, 0⟩ = realign ⟨20, 4⟩ ⟨0, 0, 0, 0⟩ ∧
        ((realign ⟨20, 4⟩ ⟨0, 0, 0, 0⟩).recNumRead : Int) =
          (((4 : Nat) : Int) - 1 + (MAXBLKS : Int)) % (MAXBLKS : Int) ∧
        (realign ⟨20, 4⟩ ⟨0, 0, 0, 0⟩).currentReadBlock = 20 - 1 ∧
        lagOf ⟨20, 4⟩ (realign ⟨20, 4⟩ ⟨0, 0, 0, 0⟩) = 1) :=
  ⟨by decide, realign_bounds_lag ⟨20, 4⟩ ⟨0, 0, 0, 0⟩ (by decide)⟩

/-! ## Claim C6: cursor invariant (confirmed) -/

/-- C6: after any number of bridge iterations from the zero-initialised
state, `recNumRead == currentReadBlock mod MAXBLKS` holds for the consumer
read cursor and the corresponding relation holds for the output ring's write
cursor, provided every observed producer cursor is itself coherent
(`curr_rec == curr_blk mod MAXBLKS`, the data-model invariant of the input
ring). -/
theorem cursor_invariant (ws : List ProdCursor)
    (hw : ∀ w ∈ ws, w.curr_rec = w.curr_blk % MAXBLKS) :
    (bridgeRun ws).recNumRead = (bridgeRun ws).currentReadBlock % MAXBLKS ∧
      (bridgeRun ws).recNumWrite = (bridgeRun ws).writeBlk % MAXBLKS := by
  suffices H : ∀ (l : List ProdCursor) (s : BridgeState),
      (∀ w ∈ l, w.curr_rec = w.curr_blk % MAXBLKS) →
      s.recNumRead = s.currentReadBlock % MAXBLKS →
      s.recNumWrite = s.writeBlk % MAXBLKS →
      (l.foldl (fun s w => bridgeIter w s) s).recNumRead =
          (l.foldl (fun s w => bridgeIter w s) s).currentReadBlock % MAXBLKS ∧
        (l.foldl (fun s w => bridgeIter w s) s).recNumWrite =
          (l.foldl (fun s w => bridgeIter w s) s).writeBlk % MAXBLKS by
    exact H ws bridgeInit hw rfl rfl
  intro l
  induction l with
  | nil => intro s _ h1 h2; exact ⟨h1, h2⟩
  | cons w l ih =>
    intro s hl h1 h2
    have hstep := bridgeIter_inv w s (hl w (List.mem_cons_self w l)) h1 h2
    exact ih (bridgeIter w s) (fun w' hw' => hl w' (List.mem_cons_of_mem w hw'))
      hstep.1 hstep.2

/-- C6 witness: a two-iteration run, the second of which realigns (producer
17 blocks ahead), keeps both cursors coherent. -/
theorem cursor_invariant_witness :
    (∀ w ∈ [(⟨1, 1⟩ : ProdCursor), ⟨18, 2⟩], w.curr_rec = w.curr_blk % MAXBLKS) ∧
      ((bridgeRun [⟨1, 1⟩, ⟨18, 2⟩]).recNumRead =
          (bridgeRun [⟨1, 1⟩, ⟨18, 2⟩]).currentReadBlock % MAXBLKS ∧
        (bridgeRun [⟨1, 1⟩, ⟨18, 2⟩]).recNumWrite =
          (bridgeRun [⟨1, 1⟩, ⟨18, 2⟩]).writeBlk % MAXBLKS) :=
  ⟨by decide, cursor_invariant [⟨1, 1⟩, ⟨18, 2⟩] (by decide)⟩

/-! ## Claim C7: half-open block range (refuted, corrected) -/

/-- C7 counterexample: a cell whose absolute index equals `block_start`
lies in the half-open range `[block_start, block_end)` claimed to be
injected, yet the scan does not inject it (the C test is
`I <= blkbeg || I >= blkend`, which excludes `blkbeg` itself). -/
theorem inject_range_counterexample :
    (0 : Int) ∉ injectScan 0 10 [0] ∧ (0 : Int) ≤ 0 ∧ (0 : Int) < 10 := by
  refine ⟨?_, le_refl 0, by norm_num⟩
  simp [injectScan]

/-- C7 amended: a cell is injected iff its absolute index lies strictly
inside the open interval `(block_start, block_end)` and every earlier cell
of the sparse list does too — the scan `break`s (without error) at the first
cell outside that open interval, so the injected cells are exactly the
longest such prefix. -/
theorem inject_range_takeWhile (blkbeg blkend : Int) (cells : List Int) :
    injectScan blkbeg blkend cells =
      cells.takeWhile (fun I => decide (blkbeg < I ∧ I < blkend)) := by
  induction cells with
  | nil => rfl
  | cons I rest ih =>
    simp only [injectScan, List.takeWhile]
    by_cases h : I ≤ blkbeg ∨ blkend ≤ I
    · rw [if_pos h]
      have hd : decide (blkbeg < I ∧ I < blkend) = false := by
        simp only [decide_eq_false_iff_not]
        omega
      rw [hd]
    · rw [if_neg h]
      have hd : decide (blkbeg < I ∧ I < blkend) = true := by
        simp only [decide_eq_true_eq]
        omega
      rw [hd, ih]

/-! ## Claim C9: lazy per-run seed (refuted, corrected) -/

/-- C9 counterexample: in a run processing two burst files of one cell each,
the underlying generator is seeded twice, not exactly once per run — the
seed variable is re-created negative for every burst file in every block
iteration. -/
theorem seed_once_per_run_counterexample :
    runInits 1 [1, 1] = 2 ∧ runInits 1 [1, 1] ≠ 1 := by
  constructor <;> decide

/-- C9 amended: the seed is a per-burst-scan value, sign-encoded lazily: it
is created negative (`-t` for wall-clock time `t > 0`), stays negative until
the scan's first deviate call, which seeds the generator exactly once for
that scan and replaces the seed with the positive sentinel 1; every later
call of the same scan draws without re-seeding.  The generator is therefore
re-seeded once per burst file per block iteration, not once per run. -/
theorem seed_lazy_per_burst (t : Int) (n : Nat) (ht : 0 < t) :
    (burstScan t 0).seed = set_seed t ∧ (burstScan t 0).seed < 0 ∧
      (burstScan t 0).inits = 0 ∧
      burstScan t (n + 1) = { seed := 1, inits := 1, draws := n + 1 } := by
  refine ⟨rfl, ?_, rfl, burstScan_succ t n ht⟩
  simp only [burstScan, Function.iterate_zero_apply, set_seed]
  omega

/-- C9 witness: with wall-clock time 5 and three processed cells the seed
starts at -5 and the scan seeds the generator exactly once. -/
theorem seed_lazy_per_burst_witness :
    (burstScan 5 0).seed = set_seed 5 ∧ (burstScan 5 0).seed < 0 ∧
      (burstScan 5 0).inits = 0 ∧
      burstScan 5 (2 + 1) = { seed := 1, inits := 1, draws := 2 + 1 } :=
  seed_lazy_per_burst 5 2 (by norm_num)

/-! ## Injection scan: structural lemmas -/

/-- An accepted shift lies between 1 and the scan's starting value. -/
lemma scanShift_some_bounds (inp : Nat) (lvl signal pval : ℝ) :
    ∀ fuel m, scanShift inp lvl signal pval fuel = some m → 1 ≤ m ∧ m ≤ fuel := by
  intro fuel
  induction fuel with
  | zero => intro m h; simp [scanShift] at h
  | succ n ih =>
    intro m h
    simp only [scanShift] at h
    split at h
    · obtain rfl : n + 1 = m := by simpa using h
      omega
    · have := ih m h
      omega

/-- If some shift `j` within the scanned range is acceptable, the descending
scan accepts a shift at least as large. -/
lemma scanShift_ge (inp : Nat) (lvl signal pval : ℝ) :
    ∀ fuel j, 1 ≤ j → j ≤ fuel → pval < plvl8 inp j lvl signal →
      ∃ m, scanShift inp lvl signal pval fuel = some m ∧ j ≤ m := by
  intro fuel
  induction fuel with
  | zero => intro j h1 h2 _; omega
  | succ n ih =>
    intro j h1 h2 hacc
    by_cases hc : pval < plvl8 inp (n + 1) lvl signal
    · exact ⟨n + 1, by simp only [scanShift, if_pos hc], h2⟩
    · have hj : j ≤ n := by
        rcases Nat.lt_or_ge j (n + 1) with h | h
        · omega
        · exfalso
          obtain rfl : j = n + 1 := by omega
          exact hc hacc
      obtain ⟨m, hm, hjm⟩ := ih j h1 hj hacc
      exact ⟨m, by simp only [scanShift, if_neg hc]; exact hm, hjm⟩

/-- The injection output never drops below the input level. -/
lemma injectLevel_ge (inp : Nat) (lvl signal pval : ℝ) :
    inp ≤ injectLevel inp lvl signal pval := by
  unfold injectLevel
  rcases hs : scanShift inp lvl signal pval (255 - inp) with _ | m
  · exact le_refl inp
  · exact Nat.le_add_right inp m

/-- The injection output never exceeds 255 for byte-valued input levels. -/
lemma injectLevel_le (inp : Nat) (lvl signal pval : ℝ) (h : inp ≤ 255) :
    injectLevel inp lvl signal pval ≤ 255 := by
  unfold injectLevel
  rcases hs : scanShift inp lvl signal pval (255 - inp) with _ | m
  · exact h
  · have hm := (scanShift_some_bounds inp lvl signal pval (255 - inp) m hs).2
    show inp + m ≤ 255
    omega

/-- At the top level the scan loop body never runs: `for (m = 0; m > 0; m--)`
exits immediately and the fallback keeps the input level. -/
lemma injectLevel_top (lvl signal pval : ℝ) :
    injectLevel 255 lvl signal pval = 255 := rfl

/-- The argmax fold of cal_bit_shift_prob never moves the output below the
start value `in`. -/
lemma gpf_foldl_ge (inp : Nat) (lvl signal : ℝ) :
    ∀ (l : List Nat) (st : ℝ × Nat), inp ≤ st.2 →
      inp ≤ (l.foldl
        (fun st m =>
          if st.1 < gpfPlvl inp m lvl signal then (gpfPlvl inp m lvl signal, inp + m) else st)
        st).2 := by
  intro l
  induction l with
  | nil => intro st h; exact h
  | cons m rest ih =>
    intro st h
    simp only [List.foldl_cons]
    apply ih
    split
    · exact Nat.le_add_right inp m
    · exact h

/-- The argmax fold of cal_bit_shift_prob stays at most 255 while every
candidate `in + m` does. -/
lemma gpf_foldl_le (inp : Nat) (lvl signal : ℝ) :
    ∀ (l : List Nat) (st : ℝ × Nat), st.2 ≤ 255 → (∀ m ∈ l, inp + m ≤ 255) →
      (l.foldl
        (fun st m =>
          if st.1 < gpfPlvl inp m lvl signal then (gpfPlvl inp m lvl signal, inp + m) else st)
        st).2 ≤ 255 := by
  intro l
  induction l with
  | nil => intro st h _; exact h
  | cons m rest ih =>
    intro st h hall
    simp only [List.foldl_cons]
    apply ih
    · split
      · exact hall m (List.mem_cons_self m rest)
      · exact h
    · intro m' hm'
      exact hall m' (List.mem_cons_of_mem m hm')

/-- cal_bit_shift_prob never lowers the level. -/
lemma cal_bit_shift_prob_ge (inp : Nat) (lvl signal : ℝ) :
    inp ≤ cal_bit_shift_prob inp lvl signal :=
  gpf_foldl_ge inp lvl signal _ ((0 : ℝ), inp) (le_refl inp)

/-- cal_bit_shift_prob stays within the byte range. -/
lemma cal_bit_shift_prob_le (inp : Nat) (lvl signal : ℝ) (h : inp ≤ 255) :
    cal_bit_shift_prob inp lvl signal ≤ 255 := by
  apply gpf_foldl_le inp lvl signal _ ((0 : ℝ), inp) h
  intro m hm
  have := List.mem_range.mp hm
  omega

/-- cal_bit_shift_prob is the identity at the top level: the single loop pass
(m = 0) can only re-select `out = 255`. -/
lemma cal_bit_shift_prob_top (lvl signal : ℝ) :
    cal_bit_shift_prob 255 lvl signal = 255 := by
  have h1 : (255 : Nat) - 255 + 1 = 1 := by norm_num
  have h2 : List.range 1 = [0] := rfl
  simp only [cal_bit_shift_prob, h1, h2, List.foldl_cons, List.foldl_nil]
  split <;> rfl

/-- The commented-out 2-bit decision tree outputs only the four legal 2-bit
levels for 2-bit inputs. -/
lemma inject2bit_le (inp : Nat) (lvl signal pval : ℝ) (h : inp ≤ 3) :
    inject2bit inp lvl signal pval ≤ 3 := by
  interval_cases inp <;> simp only [inject2bit] <;> split_ifs <;> omega

/-- The 2-bit decision tree is the identity at its top level 3. -/
lemma inject2bit_top (lvl signal pval : ℝ) : inject2bit 3 lvl signal pval = 3 := by
  simp [inject2bit]

/-! ## Claim C1: injection preserves the discrete range (confirmed) -/

/-- C1: for every input level in the legal range, every level spacing,
signal and deviate, the 8-bit injection decision (both the live unrolled
switch of src/arachne.c and the cal_bit_shift_prob variant) outputs a level
in 0..255, and the 2-bit decision tree outputs a level in 0..3 for 2-bit
inputs; injection never produces an out-of-range level. -/
theorem injection_preserves_range (inp : Nat) (lvl signal pval : ℝ)
    (h : inp ≤ 255) :
    injectLevel inp lvl signal pval ≤ 255 ∧
      cal_bit_shift_prob inp lvl signal ≤ 255 ∧
      (inp ≤ 3 → inject2bit inp lvl signal pval ≤ 3) :=
  ⟨injectLevel_le inp lvl signal pval h, cal_bit_shift_prob_le inp lvl signal h,
    fun h3 => inject2bit_le inp lvl signal pval h3⟩

/-- C1 witness at input level 2 (legal in both bit depths). -/
theorem injection_preserves_range_witness :
    injectLevel 2 1 0 0 ≤ 255 ∧ cal_bit_shift_prob 2 1 0 ≤ 255 ∧
      inject2bit 2 1 0 0 ≤ 3 :=
  ⟨(injection_preserves_range 2 1 0 0 (by norm_num)).1,
    (injection_preserves_range 2 1 0 0 (by norm_num)).2.1,
    (injection_preserves_range 2 1 0 0 (by norm_num)).2.2 (by norm_num)⟩

/-! ## Claim C3: the top level is absorbing (confirmed) -/

/-- C3: if the input level equals the maximum legal level (255 for the 8-bit
model, 3 for the 2-bit tree), the output equals the input for every level
spacing, signal and deviate. -/
theorem top_level_absorbing (lvl signal pval : ℝ) :
    injectLevel 255 lvl signal pval = 255 ∧
      cal_bit_shift_prob 255 lvl signal = 255 ∧
      inject2bit 3 lvl signal pval = 3 :=
  ⟨injectLevel_top lvl signal pval, cal_bit_shift_prob_top lvl signal,
    inject2bit_top lvl signal pval⟩

/-! ## Claim C10: injection never lowers a level (confirmed) -/

/-- C10: for every input level in 0..255, every level spacing, every signal
(positive, zero or negative) and every deviate, the level-transition model
returns an output at least the input, in both the live switch and the
cal_bit_shift_prob variant. -/
theorem injection_never_lowers (inp : Nat) (lvl signal pval : ℝ)
    (_h : inp ≤ 255) :
    inp ≤ injectLevel inp lvl signal pval ∧
      inp ≤ cal_bit_shift_prob inp lvl signal :=
  ⟨injectLevel_ge inp lvl signal pval, cal_bit_shift_prob_ge inp lvl signal⟩

/-- C10 witness at input level 7 with a negative signal. -/
theorem injection_never_lowers_witness :
    7 ≤ injectLevel 7 1 (-2) 0 ∧ 7 ≤ cal_bit_shift_prob 7 1 (-2) :=
  injection_never_lowers 7 1 (-2) 0 (by norm_num)

/-! ## Monotonicity of the Gaussian CDF -/

/-- The error function is strictly increasing. -/
lemma erf_strictMono : StrictMono erf := by
  intro a b hab
  unfold erf
  have hc : Continuous fun t : ℝ => Real.exp (-t ^ 2) :=
    Real.continuous_exp.comp (continuous_pow 2).neg
  have hint : ∀ x y : ℝ,
      IntervalIntegrable (fun t => Real.exp (-t ^ 2)) MeasureTheory.volume x y :=
    fun x y => hc.intervalIntegrable x y
  have hpos : 0 < ∫ t in a..b, Real.exp (-t ^ 2) :=
    intervalIntegral.intervalIntegral_pos_of_pos (hint a b)
      (fun x => Real.exp_pos _) hab
  have hadd : (∫ t in (0:ℝ)..a, Real.exp (-t ^ 2)) + ∫ t in a..b, Real.exp (-t ^ 2)
      = ∫ t in (0:ℝ)..b, Real.exp (-t ^ 2) :=
    intervalIntegral.integral_add_adjacent_intervals (hint 0 a) (hint a b)
  have hfac : 0 < 2 / Real.sqrt Real.pi := by positivity
  have hlt : (∫ t in (0:ℝ)..a, Real.exp (-t ^ 2)) <
      ∫ t in (0:ℝ)..b, Real.exp (-t ^ 2) := by linarith
  exact mul_lt_mul_of_pos_left hlt hfac

/-- prob, the Gaussian CDF of the C code, is strictly increasing. -/
lemma prob_strictMono : StrictMono prob := by
  intro a b hab
  unfold prob
  have h2 : (0:ℝ) < Real.sqrt 2 := Real.sqrt_pos.mpr (by norm_num)
  have h := erf_strictMono ((div_lt_div_iff_of_pos_right h2).mpr hab)
  linarith

/-- prob is monotone. -/
lemma prob_mono : Monotone prob := prob_strictMono.monotone

/-! ## Claim C4: monotonicity in signal (refuted, corrected) -/

/-- An accepted shift of the descending scan satisfies the acceptance test. -/
lemma scanShift_some_accepted (inp : Nat) (lvl signal pval : ℝ) :
    ∀ fuel m, scanShift inp lvl signal pval fuel = some m →
      pval < plvl8 inp m lvl signal := by
  intro fuel
  induction fuel with
  | zero => intro m h; simp [scanShift] at h
  | succ n ih =>
    intro m h
    simp only [scanShift] at h
    split at h
    · obtain rfl : n + 1 = m := by simpa using h
      assumption
    · exact ih m h

/-- With `in = 127`, `lvl = signal = 0.030765` and deviate 1/2, the scan body
rejects every shift m >= 2: the transition mass lies entirely at m = 1. -/
lemma plvl8_small_reject (m : Nat) (hm : 2 ≤ m) :
    plvl8 127 m 0.030765 0.030765 ≤ 0 := by
  have hl : (0:ℝ) < 0.030765 := by norm_num
  have hm' : (2:ℝ) ≤ (m : ℝ) := by exact_mod_cast hm
  unfold plvl8
  push_cast
  have e1 : ((127:ℝ) - 127) * 0.030765 = 0 := by ring
  have e2 : ((127:ℝ) + (m:ℝ) - 127) * 0.030765 - 0.030765 = ((m:ℝ) - 1) * 0.030765 := by
    ring
  have e3 : ((127:ℝ) - 128) * 0.030765 = -0.030765 := by ring
  have e4 : ((127:ℝ) + (m:ℝ) - 128) * 0.030765 - 0.030765 = ((m:ℝ) - 2) * 0.030765 := by
    ring
  rw [e1, e2, e3, e4]
  have hmin : min (0:ℝ) (((m:ℝ) - 1) * 0.030765) = 0 :=
    min_eq_left (by nlinarith)
  have hmax : max (-(0.030765:ℝ)) (((m:ℝ) - 2) * 0.030765) = ((m:ℝ) - 2) * 0.030765 :=
    max_eq_right (by nlinarith)
  rw [hmin, hmax]
  have hnum : prob 0 - prob (((m:ℝ) - 2) * 0.030765) ≤ 0 :=
    sub_nonpos.mpr (prob_mono (by nlinarith))
  have hden : (0:ℝ) < prob 0 - prob (-0.030765) :=
    sub_pos.mpr (prob_strictMono (by norm_num))
  exact div_nonpos_of_nonpos_of_nonneg hnum (le_of_lt hden)

/-- With `in = 127`, `lvl = signal = 0.030765` the shift m = 1 is accepted
with certainty: its transition mass ratio is exactly 1. -/
lemma plvl8_small_accept : plvl8 127 1 0.030765 0.030765 = 1 := by
  unfold plvl8
  push_cast
  have e1 : ((127:ℝ) - 127) * 0.030765 = 0 := by ring
  have e2 : ((127:ℝ) + 1 - 127) * 0.030765 - 0.030765 = 0 := by ring
  have e3 : ((127:ℝ) - 128) * 0.030765 = -0.030765 := by ring
  have e4 : ((127:ℝ) + 1 - 128) * 0.030765 - 0.030765 = -0.030765 := by ring
  rw [e1, e2, e3, e4, min_self, max_self]
  have hden : (0:ℝ) < prob 0 - prob (-0.030765) :=
    sub_pos.mpr (prob_strictMono (by norm_num))
  exact div_self (ne_of_gt hden)

/-- With `in = 127`, `lvl = 0.030765` and a large signal 10, every candidate
shift m in 1..128 is rejected: the whole transition mass has been pushed
past the top level. -/
lemma plvl8_large_reject (m : Nat) (hm1 : 1 ≤ m) (hm2 : m ≤ 128) :
    plvl8 127 m 0.030765 10 ≤ 0 := by
  have hm2' : ((m:ℝ)) ≤ 128 := by exact_mod_cast hm2
  have hm1' : (1:ℝ) ≤ (m : ℝ) := by exact_mod_cast hm1
  unfold plvl8
  push_cast
  have e1 : ((127:ℝ) - 127) * 0.030765 = 0 := by ring
  have e2 : ((127:ℝ) + (m:ℝ) - 127) * 0.030765 - 10 = (m:ℝ) * 0.030765 - 10 := by ring
  have e3 : ((127:ℝ) - 128) * 0.030765 = -0.030765 := by ring
  have e4 : ((127:ℝ) + (m:ℝ) - 128) * 0.030765 - 10
      = ((m:ℝ) - 1) * 0.030765 - 10 := by ring
  rw [e1, e2, e3, e4]
  have hmin : min (0:ℝ) ((m:ℝ) * 0.030765 - 10) = (m:ℝ) * 0.030765 - 10 :=
    min_eq_right (by nlinarith)
  have hmax : max (-(0.030765:ℝ)) (((m:ℝ) - 1) * 0.030765 - 10) = -0.030765 :=
    max_eq_left (by nlinarith)
  rw [hmin, hmax]
  have hnum : prob ((m:ℝ) * 0.030765 - 10) - prob (-0.030765) ≤ 0 :=
    sub_nonpos.mpr (prob_mono (by nlinarith))
  have hden : (0:ℝ) < prob 0 - prob (-0.030765) :=
    sub_pos.mpr (prob_strictMono (by norm_num))
  exact div_nonpos_of_nonpos_of_nonneg hnum (le_of_lt hden)

/-- One unfolding step of the descending scan. -/
lemma scanShift_succ (inp : Nat) (lvl signal pval : ℝ) (n : Nat) :
    scanShift inp lvl signal pval (n + 1) =
      if pval < plvl8 inp (n + 1) lvl signal then some (n + 1)
      else scanShift inp lvl signal pval n := rfl

/-- At the near-threshold signal the scan settles on the shift 1. -/
lemma scanShift_small : ∀ n : Nat,
    scanShift 127 0.030765 0.030765 (1/2) (n + 1) = some 1 := by
  intro n
  induction n with
  | zero =>
    have hacc : (1/2 : ℝ) < plvl8 127 (0 + 1) 0.030765 0.030765 := by
      have h := plvl8_small_accept
      rw [show (0 + 1 : Nat) = 1 from rfl, h]
      norm_num
    rw [scanShift_succ, if_pos hacc]
  | succ n ih =>
    have hrej : ¬ (1/2 : ℝ) < plvl8 127 (n + 1 + 1) 0.030765 0.030765 := by
      have h := plvl8_small_reject (n + 1 + 1) (by omega)
      exact not_lt.mpr (le_trans h (by norm_num))
    rw [scanShift_succ, if_neg hrej, ih]

/-- At the large signal the scan rejects everything. -/
lemma scanShift_large : ∀ n : Nat, n ≤ 128 →
    scanShift 127 0.030765 10 (1/2) n = none := by
  intro n
  induction n with
  | zero => intro _; rfl
  | succ n ih =>
    intro hn
    have hrej : ¬ (1/2 : ℝ) < plvl8 127 (n + 1) 0.030765 10 := by
      have h := plvl8_large_reject (n + 1) (by omega) hn
      exact not_lt.mpr (le_trans h (by norm_num))
    rw [scanShift_succ, if_neg hrej, ih (by omega)]

/-- The injection output at `in = 127`, `lvl = signal = 0.030765`, deviate
1/2 is 128. -/
lemma injectLevel_small_signal :
    injectLevel 127 0.030765 0.030765 (1/2) = 128 := by
  unfold injectLevel
  have h : (255:Nat) - 127 = 127 + 1 := by norm_num
  rw [h, scanShift_small 127]

/-- The injection output at `in = 127`, `lvl = 0.030765`, `signal = 10`,
deviate 1/2 falls back to 127. -/
lemma injectLevel_large_signal :
    injectLevel 127 0.030765 10 (1/2) = 127 := by
  unfold injectLevel
  have h : (255:Nat) - 127 = 128 := by norm_num
  rw [h, scanShift_large 128 (le_refl 128)]

/-- C4 counterexample: with fixed input level 127 and fixed deviate 1/2,
raising the signal from 0.030765 to 10 lowers the output level from 128 to
127 — the output is not monotone in the signal.  (At the large signal every
transition probability is overshot and the scan keeps the input level.) -/
theorem signal_monotonicity_counterexample :
    (0.030765 : ℝ) < 10 ∧
      injectLevel 127 0.030765 10 (1/2) < injectLevel 127 0.030765 0.030765 (1/2) := by
  constructor
  · norm_num
  · rw [injectLevel_small_signal, injectLevel_large_signal]
    norm_num

/-- The scan body's probability is invariant under shifting the candidate
level and the signal together by `k` level steps. -/
lemma plvl8_shift (inp m k : Nat) (lvl signal : ℝ) :
    plvl8 inp (m + k) lvl (signal + (k : ℝ) * lvl) = plvl8 inp m lvl signal := by
  unfold plvl8
  have e1 : ((inp : ℝ) + ((m + k : ℕ) : ℝ) - 127) * lvl - (signal + (k:ℝ) * lvl)
      = ((inp : ℝ) + (m : ℝ) - 127) * lvl - signal := by push_cast; ring
  have e2 : ((inp : ℝ) + ((m + k : ℕ) : ℝ) - 128) * lvl - (signal + (k:ℝ) * lvl)
      = ((inp : ℝ) + (m : ℝ) - 128) * lvl - signal := by push_cast; ring
  rw [e1, e2]

/-- C4 amended: monotonicity in signal holds only along level steps: for
fixed input level and deviate, raising the signal by a whole number `k` of
level spacings never decreases the output, as long as the original output
still has `k` levels of headroom below 255.  For general signal increases
monotonicity fails (see the counterexample). -/
theorem signal_monotone_in_level_steps (inp k : Nat) (lvl signal pval : ℝ)
    (h : injectLevel inp lvl signal pval + k ≤ 255) :
    injectLevel inp lvl signal pval ≤
      injectLevel inp lvl (signal + (k : ℝ) * lvl) pval := by
  rcases hs : scanShift inp lvl signal pval (255 - inp) with _ | m
  · have hL : injectLevel inp lvl signal pval = inp := by
      unfold injectLevel; rw [hs]
    rw [hL]
    exact injectLevel_ge inp lvl _ pval
  · have hL : injectLevel inp lvl signal pval = inp + m := by
      unfold injectLevel; rw [hs]
    obtain ⟨hm1, hm2⟩ := scanShift_some_bounds inp lvl signal pval (255 - inp) m hs
    have hacc : pval < plvl8 inp m lvl signal :=
      scanShift_some_accepted inp lvl signal pval (255 - inp) m hs
    have hacc' : pval < plvl8 inp (m + k) lvl (signal + (k:ℝ) * lvl) := by
      rw [plvl8_shift]; exact hacc
    have hmk : m + k ≤ 255 - inp := by
      rw [hL] at h; omega
    obtain ⟨m', hm', hge⟩ := scanShift_ge inp lvl (signal + (k:ℝ) * lvl) pval
      (255 - inp) (m + k) (by omega) hmk hacc'
    have hR : injectLevel inp lvl (signal + (k:ℝ) * lvl) pval = inp + m' := by
      unfold injectLevel; rw [hm']
    rw [hL, hR]
    omega

/-- C4 amended witness: at the absorbing top level with zero level steps. -/
theorem signal_monotone_in_level_steps_witness :
    injectLevel 255 1 0 0 + 0 ≤ 255 ∧
      injectLevel 255 1 0 0 ≤ injectLevel 255 1 (0 + ((0:ℕ) : ℝ) * 1) 0 :=
  ⟨by simp [injectLevel_top], signal_monotone_in_level_steps 255 0 1 0 0
    (by simp [injectLevel_top])⟩

end Arachne
